import Mathlib

/-!
Verification of the `<md>` tag segmentation pipeline of
`astrbot_plugin_markdown2img` (`main.py`).

The core logic, `MarkdownConverterPlugin._process_text_with_markdown`, splits
an input text on the Python regex `(<md>.*?</md>)` (with `re.DOTALL`), strips
each resulting piece, drops empty pieces, turns pieces delimited by the
literal tags `<md>` and `</md>` into rendered images (markdown content
`part[4:-5].strip()`, dropped when empty, degraded to a failure-notice text
on render failure) and keeps other pieces as plain text.

Texts are modelled as `List Char` (Python strings are sequences of code
points).  The external Playwright render capability is modelled as an oracle
`List Char → RenderOutcome` covering the three observable outcomes of the
`try` block in the source: image file produced, no file produced, exception.
-/

/-- Characters stripped by Python `str.strip()` (ASCII whitespace). -/
def pyWhitespace (c : Char) : Bool :=
  (c = ' ') || (c = '\t') || (c = '\n') || (c = '\r') || (c = '\x0b') || (c = '\x0c')

/-- Drop trailing whitespace, the right half of Python `str.strip()`. -/
def dropTrail (l : List Char) : List Char :=
  (l.reverse.dropWhile pyWhitespace).reverse

/-- Python `str.strip()`. -/
def strip (l : List Char) : List Char :=
  dropTrail (l.dropWhile pyWhitespace)

/-- Python `s[:-n]` on a list (all but the last `n` elements). -/
def dropRight (n : Nat) (l : List Char) : List Char :=
  l.take (l.length - n)

/-- Convenience: the character list of a string literal. -/
def str (s : String) : List Char := s.data

/-- The literal start tag `<md>` from the source regex. -/
def openTag : List Char := ['<', 'm', 'd', '>']

/-- The literal end tag `</md>` from the source regex. -/
def closeTag : List Char := ['<', '/', 'm', 'd', '>']

/-- Python `str.startswith` on lists: `listStartsWith pat l` holds when
`pat` is a prefix of `l`. -/
def listStartsWith : List Char → List Char → Bool
  | [], _ => true
  | _ :: _, [] => false
  | p :: ps, c :: cs => p = c && listStartsWith ps cs

/-- Python `str.endswith` on lists. -/
def listEndsWith (pat l : List Char) : Bool :=
  listStartsWith pat.reverse l.reverse

/-- Split a list at the first occurrence of `pat`: returns the part before
the first occurrence and the part after it, or `none` when `pat` does not
occur.  This is the primitive with which the leftmost regex match of the
source's `re.split` is expressed. -/
def splitFirst (pat : List Char) : List Char → Option (List Char × List Char)
  | [] => none
  | c :: rest =>
    if listStartsWith pat (c :: rest) then some ([], (c :: rest).drop pat.length)
    else
      match splitFirst pat rest with
      | some (b, a) => some (c :: b, a)
      | none => none

/-- Whether `pat` occurs as a contiguous substring. -/
def containsPat (pat l : List Char) : Bool :=
  (splitFirst pat l).isSome

/-- Number of (starting positions of) occurrences of `pat`. -/
def countOcc (pat : List Char) : List Char → Nat
  | [] => 0
  | c :: rest => (if listStartsWith pat (c :: rest) then 1 else 0) + countOcc pat rest

/-- The leftmost, shortest match of the source regex `<md>.*?</md>`
(`re.DOTALL`): the first `<md>` that is followed by a `</md>`, matched up to
the first following `</md>`.  Returns `(before, interior, after)`. -/
def findMdMatch (l : List Char) : Option (List Char × List Char × List Char) :=
  match splitFirst openTag l with
  | none => none
  | some (b, a) =>
    match splitFirst closeTag a with
    | none => none
    | some (i, r) => some (b, i, r)

/-- Fuel-driven worker for `splitParts` (fuel bounds the number of matches,
each match consumes at least nine characters). -/
def splitPartsF : Nat → List Char → List (List Char)
  | 0, l => [l]
  | Nat.succ fuel, l =>
    match findMdMatch l with
    | none => [l]
    | some (b, i, r) => b :: (openTag ++ i ++ closeTag) :: splitPartsF fuel r

/-- Python `re.split(r"(<md>.*?</md>)", text, flags=re.DOTALL)`: the pieces
between matches interleaved with the (captured) matches themselves, in
left-to-right order. -/
def splitParts (l : List Char) : List (List Char) :=
  splitPartsF l.length l

/-! ### Basic facts about the string primitives -/

theorem listStartsWith_iff (pat l : List Char) :
    listStartsWith pat l = true ↔ ∃ t, l = pat ++ t := by
  induction pat generalizing l with
  | nil => simp [listStartsWith]
  | cons p ps ih =>
    cases l with
    | nil => simp [listStartsWith]
    | cons c cs =>
      simp only [listStartsWith, Bool.and_eq_true, decide_eq_true_eq, ih,
        List.cons_append, List.cons.injEq]
      constructor
      · rintro ⟨rfl, t, rfl⟩; exact ⟨t, rfl, rfl⟩
      · rintro ⟨t, rfl, rfl⟩; exact ⟨rfl, t, rfl⟩

theorem listEndsWith_iff (pat l : List Char) :
    listEndsWith pat l = true ↔ ∃ u, l = u ++ pat := by
  unfold listEndsWith
  rw [listStartsWith_iff]
  constructor
  · rintro ⟨t, ht⟩
    refine ⟨t.reverse, ?_⟩
    have := congrArg List.reverse ht
    simpa [List.reverse_append] using this
  · rintro ⟨u, rfl⟩
    exact ⟨u.reverse, by simp [List.reverse_append]⟩

theorem splitFirst_sound {pat l b a : List Char}
    (h : splitFirst pat l = some (b, a)) : l = b ++ pat ++ a := by
  induction l generalizing b with
  | nil => simp [splitFirst] at h
  | cons c rest ih =>
    rw [splitFirst] at h
    by_cases hs : listStartsWith pat (c :: rest) = true
    · rw [if_pos hs] at h
      obtain ⟨t, ht⟩ := (listStartsWith_iff _ _).mp hs
      obtain ⟨rfl, rfl⟩ : b = [] ∧ a = (c :: rest).drop pat.length := by
        cases h; exact ⟨rfl, rfl⟩
      rw [ht, List.drop_left]
      simp [ht]
    · rw [if_neg hs] at h
      cases hrec : splitFirst pat rest with
      | none => rw [hrec] at h; cases h
      | some p =>
        obtain ⟨b0, a0⟩ := p
        rw [hrec] at h
        cases h
        have := ih hrec
        simp [this]

theorem splitFirst_none {pat l : List Char} (hne : pat ≠ [])
    (h : splitFirst pat l = none) : ∀ u v, l ≠ u ++ pat ++ v := by
  induction l with
  | nil =>
    intro u v he
    rcases List.append_eq_nil.mp he.symm with ⟨h1, h2⟩
    rcases List.append_eq_nil.mp h1 with ⟨-, h3⟩
    exact hne h3
  | cons c rest ih =>
    rw [splitFirst] at h
    by_cases hs : listStartsWith pat (c :: rest) = true
    · rw [if_pos hs] at h; cases h
    · rw [if_neg hs] at h
      intro u v he
      cases u with
      | nil =>
        exact hs ((listStartsWith_iff _ _).mpr ⟨v, by simpa using he⟩)
      | cons u0 us =>
        have hrest : rest = us ++ pat ++ v := by
          have := he
          simp only [List.cons_append, List.cons.injEq] at this
          exact this.2
        cases hrec : splitFirst pat rest with
        | none => exact ih hrec us v hrest
        | some p => rw [hrec] at h; cases h


theorem splitFirst_cons (pat : List Char) (c : Char) (rest : List Char) :
    splitFirst pat (c :: rest) =
      if listStartsWith pat (c :: rest) then some ([], (c :: rest).drop pat.length)
      else
        match splitFirst pat rest with
        | some (b, a) => some (c :: b, a)
        | none => none := rfl

/-- A pattern has no self-overlap when it cannot be written as the
concatenation of two of its own nonempty proper initial segments; both tags
satisfy this (checked by `decide` at the use sites). -/
def selfOverlapFree (pat : List Char) : Prop :=
  ∀ k, k < pat.length → 0 < k → pat ≠ pat.take k ++ pat.take (pat.length - k)

instance (pat : List Char) : Decidable (selfOverlapFree pat) :=
  Nat.decidableBallLT _ _

theorem splitFirst_at {pat : List Char} (pre r : List Char) (hne : pat ≠ [])
    (hso : selfOverlapFree pat) (hpre : ∀ u v, pre ≠ u ++ pat ++ v) :
    splitFirst pat (pre ++ pat ++ r) = some (pre, r) := by
  induction pre with
  | nil =>
    cases hp : pat with
    | nil => exact absurd hp hne
    | cons p ps =>
      subst hp
      simp only [List.nil_append, List.cons_append]
      rw [splitFirst_cons]
      have hs : listStartsWith (p :: ps) (p :: (ps ++ r)) = true :=
        (listStartsWith_iff _ _).mpr ⟨r, by simp⟩
      rw [if_pos hs]
      have hd : (p :: (ps ++ r)).drop (p :: ps).length = r := by
        have he : p :: (ps ++ r) = (p :: ps) ++ r := by simp
        rw [he, List.drop_left]
      rw [hd]
  | cons c pre' ih =>
    have hcons : (c :: pre') ++ pat ++ r = c :: (pre' ++ pat ++ r) := by simp
    rw [hcons, splitFirst_cons]
    have hfalse : listStartsWith pat (c :: (pre' ++ pat ++ r)) = false := by
      rw [Bool.eq_false_iff]
      intro hs
      obtain ⟨t, ht⟩ := (listStartsWith_iff _ _).mp hs
      have ht2 : (c :: pre') ++ (pat ++ r) = pat ++ t := by simpa using ht
      rcases List.append_eq_append_iff.mp ht2 with ⟨a2, hpa, hrt⟩ | ⟨c2, hc2, -⟩
      · by_cases ha : a2 = []
        · subst ha
          exact hpre [] [] (by simpa using hpa.symm)
        · have hlen : pat.length = (c :: pre').length + a2.length := by
            rw [hpa, List.length_append]
          have ha2take : a2 = pat.take a2.length := by
            rcases List.append_eq_append_iff.mp hrt with ⟨x, hx1, -⟩ | ⟨x, hx1, -⟩
            · exfalso
              have := congrArg List.length hx1
              simp only [List.length_append] at this
              have hL : 0 < (c :: pre').length := by simp
              omega
            · rw [hx1, List.take_left]
          have hcp : c :: pre' = pat.take (c :: pre').length := by
            rw [hpa, List.take_left]
          have hk : pat.length - (c :: pre').length = a2.length := by omega
          refine hso (c :: pre').length ?_ (by simp) ?_
          · have : 0 < a2.length := List.length_pos.mpr ha
            omega
          · rw [← hcp, hk, ← ha2take]
            exact hpa
      · exact hpre [] c2 (by simpa using hc2)
    rw [hfalse]
    simp only [Bool.false_eq_true, if_false]
    have hpre2 : ∀ u v, pre' ≠ u ++ pat ++ v := by
      intro u v he
      exact hpre (c :: u) v (by simp [he])
    rw [ih hpre2]

theorem containsPat_iff {pat : List Char} (hne : pat ≠ []) (l : List Char) :
    containsPat pat l = true ↔ ∃ u v, l = u ++ pat ++ v := by
  unfold containsPat
  constructor
  · intro h
    cases hs : splitFirst pat l with
    | none => rw [hs] at h; cases h
    | some p => exact ⟨p.1, p.2, splitFirst_sound (by rw [hs])⟩
  · rintro ⟨u, v, rfl⟩
    cases hs : splitFirst pat (u ++ pat ++ v) with
    | none => exact absurd rfl (splitFirst_none hne hs u v)
    | some p => simp

theorem containsPat_false_iff {pat : List Char} (hne : pat ≠ []) (l : List Char) :
    containsPat pat l = false ↔ ∀ u v, l ≠ u ++ pat ++ v := by
  rw [← Bool.not_eq_true, containsPat_iff hne]
  push_neg
  rfl

theorem containsPat_mono {pat m l : List Char} (hne : pat ≠ [])
    (h : containsPat pat m = true) (hml : ∃ a b, l = a ++ m ++ b) :
    containsPat pat l = true := by
  obtain ⟨u, v, rfl⟩ := (containsPat_iff hne m).mp h
  obtain ⟨a, b, rfl⟩ := hml
  exact (containsPat_iff hne _).mpr ⟨a ++ u, v ++ b, by simp⟩

theorem countOcc_eq_zero_iff (pat l : List Char) :
    countOcc pat l = 0 ↔ containsPat pat l = false := by
  induction l with
  | nil =>
    simp [countOcc, containsPat, splitFirst]
  | cons c rest ih =>
    rw [countOcc, containsPat, splitFirst_cons]
    by_cases hs : listStartsWith pat (c :: rest) = true
    · rw [if_pos hs, if_pos hs]
      simp
    · rw [if_neg hs, if_neg hs]
      simp only [Nat.zero_add]
      rw [ih]
      unfold containsPat
      cases splitFirst pat rest <;> simp

/-! ### The leftmost regex match -/

theorem findMdMatch_sound {l b i r : List Char}
    (h : findMdMatch l = some (b, i, r)) :
    l = b ++ openTag ++ i ++ closeTag ++ r := by
  unfold findMdMatch at h
  cases h1 : splitFirst openTag l with
  | none => rw [h1] at h; cases h
  | some p =>
    obtain ⟨b0, a0⟩ := p
    simp only [h1] at h
    cases h2 : splitFirst closeTag a0 with
    | none => simp [h2] at h
    | some q =>
      obtain ⟨i0, r0⟩ := q
      simp only [h2] at h
      obtain ⟨rfl, rfl, rfl⟩ : b = b0 ∧ i = i0 ∧ r = r0 := by
        cases h; exact ⟨rfl, rfl, rfl⟩
      have e1 := splitFirst_sound h1
      have e2 := splitFirst_sound h2
      rw [e1, e2]
      simp

theorem findMdMatch_at (pre x rest : List Char)
    (hpre : containsPat openTag pre = false)
    (hx : containsPat closeTag x = false) :
    findMdMatch (pre ++ openTag ++ x ++ closeTag ++ rest) = some (pre, x, rest) := by
  have hpre2 := (containsPat_false_iff (by decide) pre).mp hpre
  have hx2 := (containsPat_false_iff (by decide) x).mp hx
  have h1 : splitFirst openTag (pre ++ openTag ++ (x ++ closeTag ++ rest))
      = some (pre, x ++ closeTag ++ rest) :=
    splitFirst_at pre _ (by decide) (by decide) hpre2
  have h2 : splitFirst closeTag (x ++ closeTag ++ rest) = some (x, rest) :=
    splitFirst_at x rest (by decide) (by decide) hx2
  unfold findMdMatch
  have he : pre ++ openTag ++ x ++ closeTag ++ rest
      = pre ++ openTag ++ (x ++ closeTag ++ rest) := by simp
  rw [he]
  simp only [h1, h2]

theorem findMdMatch_none {l : List Char}
    (h : containsPat openTag l = false ∨ containsPat closeTag l = false) :
    findMdMatch l = none := by
  unfold findMdMatch
  cases h1 : splitFirst openTag l with
  | none => rfl
  | some p =>
    obtain ⟨b, a⟩ := p
    rcases h with h | h
    · exfalso
      have : containsPat openTag l = true := by
        unfold containsPat; rw [h1]; rfl
      rw [h] at this; cases this
    · cases h2 : splitFirst closeTag a with
      | none => simp only [h2]
      | some q =>
        exfalso
        obtain ⟨i, r⟩ := q
        have e1 := splitFirst_sound h1
        have e2 := splitFirst_sound h2
        have hocc : containsPat closeTag l = true := by
          refine (containsPat_iff (by decide) l).mpr ⟨b ++ openTag ++ i, r, ?_⟩
          rw [e1, e2]
          simp
        rw [h] at hocc; cases hocc

/-! ### The regex split -/

theorem findMdMatch_nil : findMdMatch [] = none := rfl

theorem splitPartsF_fuel_eq :
    ∀ f1 f2 (l : List Char), l.length ≤ f1 → l.length ≤ f2 →
      splitPartsF f1 l = splitPartsF f2 l := by
  intro f1
  induction f1 with
  | zero =>
    intro f2 l h1 _
    have hl : l = [] := List.eq_nil_of_length_eq_zero (Nat.le_zero.mp h1)
    subst hl
    cases f2 with
    | zero => rfl
    | succ m => simp [splitPartsF, findMdMatch_nil]
  | succ n ih =>
    intro f2 l h1 h2
    cases f2 with
    | zero =>
      have hl : l = [] := List.eq_nil_of_length_eq_zero (Nat.le_zero.mp h2)
      subst hl
      simp [splitPartsF, findMdMatch_nil]
    | succ m =>
      rw [splitPartsF, splitPartsF]
      cases hm : findMdMatch l with
      | none => rfl
      | some p =>
        obtain ⟨b, i, r⟩ := p
        have hdec := findMdMatch_sound hm
        have hlen : l.length = b.length + 4 + i.length + 5 + r.length := by
          rw [hdec]
          simp [openTag, closeTag, str]
          omega
        have hr1 : r.length ≤ n := by omega
        have hr2 : r.length ≤ m := by omega
        show b :: (openTag ++ i ++ closeTag) :: splitPartsF n r
            = b :: (openTag ++ i ++ closeTag) :: splitPartsF m r
        rw [ih m r hr1 hr2]

theorem splitParts_of_none {l : List Char} (h : findMdMatch l = none) :
    splitParts l = [l] := by
  unfold splitParts
  cases hn : l.length with
  | zero => rfl
  | succ n => simp [splitPartsF, h]

theorem splitParts_of_some {l b i r : List Char}
    (h : findMdMatch l = some (b, i, r)) :
    splitParts l = b :: (openTag ++ i ++ closeTag) :: splitParts r := by
  have hdec := findMdMatch_sound h
  have hlen : l.length = b.length + 4 + i.length + 5 + r.length := by
    rw [hdec]
    simp [openTag, closeTag, str]
    omega
  unfold splitParts
  cases hn : l.length with
  | zero => omega
  | succ n =>
    rw [splitPartsF, h]
    show b :: (openTag ++ i ++ closeTag) :: splitPartsF n r
        = b :: (openTag ++ i ++ closeTag) :: splitPartsF r.length r
    rw [splitPartsF_fuel_eq n r.length r (by omega) Nat.le.refl]

/-! ### Data model: segments, render outcomes, message-chain components -/

/-- A segment produced by the segmentation logic: either plain text to be
delivered verbatim or markdown destined for rendering. -/
inductive Segment where
  | text (content : List Char)
  | renderable (markdown : List Char)
deriving DecidableEq

/-- The content carried by a segment (`content` of a `Text` segment,
`markdown` of a `Renderable` segment). -/
def segContent : Segment → List Char
  | Segment.text c => c
  | Segment.renderable m => m

/-- The three observable outcomes of the render block in the source:
the image file exists after the attempt (`ok`), the call returned but no
file exists (`missing`), or the call raised (`error`). -/
inductive RenderOutcome where
  | ok (path : List Char)
  | missing
  | error
deriving DecidableEq

/-- A message-chain component: `Plain`, `Image`, or any other component
type of the host framework (opaque to the plugin, which only inspects
`isinstance(item, Plain)`). -/
inductive Component where
  | plain (text : List Char)
  | image (path : List Char)
  | other (id : Nat)
deriving DecidableEq

/-- `f"--- Markdown 渲染失败 ---\n{md_content}"` without the content: the
notice used when the render call returns but no image file exists. -/
def failNotice : List Char := str "--- Markdown 渲染失败 ---\n"

/-- `f"--- Markdown 渲染异常 ---\n{md_content}"` without the content: the
notice used when the render call raises. -/
def errorNotice : List Char := str "--- Markdown 渲染异常 ---\n"

/-- One iteration of the loop body of `_process_text_with_markdown`: strip
the piece, drop it when empty, detect the `<md>...</md>` shape, extract and
strip `part[4:-5]`, drop empty markdown, render (via the oracle) or fall
back to a failure notice, otherwise keep the piece as plain text. -/
def handlePart (render : List Char → RenderOutcome) (part : List Char) :
    Option Component :=
  let p := strip part
  if p = [] then none
  else if listStartsWith openTag p && listEndsWith closeTag p then
    let md := strip (dropRight 5 (p.drop 4))
    if md = [] then none
    else
      some (match render md with
        | RenderOutcome.ok path => Component.image path
        | RenderOutcome.missing => Component.plain (failNotice ++ md)
        | RenderOutcome.error => Component.plain (errorNotice ++ md))
  else some (Component.plain p)

/-- `MarkdownConverterPlugin._process_text_with_markdown`: split on the
regex, then run the loop body over every piece, collecting the emitted
components in order. -/
def process_text_with_markdown (render : List Char → RenderOutcome)
    (text : List Char) : List Component :=
  (splitParts text).filterMap (handlePart render)

/-- The segmentation decision of the loop body, i.e. `handlePart` with the
rendering abstracted away: which segment (if any) a piece contributes. -/
def segPart (part : List Char) : Option Segment :=
  let p := strip part
  if p = [] then none
  else if listStartsWith openTag p && listEndsWith closeTag p then
    let md := strip (dropRight 5 (p.drop 4))
    if md = [] then none
    else some (Segment.renderable md)
  else some (Segment.text p)

/-- The pure segmentation underlying `_process_text_with_markdown`: the
ordered segments the loop emits, before rendering. -/
def segmentText (text : List Char) : List Segment :=
  (splitParts text).filterMap segPart

/-- How a single segment is materialised into a component: text stays
plain; markdown becomes the rendered image on success and a failure notice
wrapping the original markdown otherwise. -/
def renderSegment (render : List Char → RenderOutcome) : Segment → Component
  | Segment.text c => Component.plain c
  | Segment.renderable m =>
    match render m with
    | RenderOutcome.ok path => Component.image path
    | RenderOutcome.missing => Component.plain (failNotice ++ m)
    | RenderOutcome.error => Component.plain (errorNotice ++ m)

/-- The chain-rewriting loop of `on_decorating_result`: `Plain` components
are replaced by the components produced from their text, every other
component is appended unchanged. -/
def on_decorating_result (render : List Char → RenderOutcome) :
    List Component → List Component
  | [] => []
  | item :: rest =>
    (match item with
      | Component.plain t => process_text_with_markdown render t
      | x => [x]) ++ on_decorating_result render rest

/-! ### Facts about `strip` -/

theorem dropWhile_self (p : Char → Bool) (l : List Char) :
    (l.dropWhile p).dropWhile p = l.dropWhile p := by
  induction l with
  | nil => rfl
  | cons c rest ih =>
    by_cases hc : p c = true
    · rw [List.dropWhile_cons_of_pos hc]
      exact ih
    · have hc2 : p c = false := by revert hc; cases p c <;> simp
      rw [List.dropWhile_cons_of_neg (by simp [hc2])]
      rw [List.dropWhile_cons_of_neg (by simp [hc2])]

theorem dropWhile_head_false {p : Char → Bool} {l : List Char} {c : Char}
    (h : (l.dropWhile p).head? = some c) : p c = false := by
  induction l with
  | nil => simp [List.dropWhile] at h
  | cons a rest ih =>
    by_cases ha : p a = true
    · rw [List.dropWhile_cons_of_pos ha] at h
      exact ih h
    · have ha2 : p a = false := by revert ha; cases p a <;> simp
      rw [List.dropWhile_cons_of_neg (by simp [ha2])] at h
      simp at h
      rw [← h]
      exact ha2

theorem dropWhile_of_head_false {p : Char → Bool} {l : List Char}
    (h : ∀ c, l.head? = some c → p c = false) : l.dropWhile p = l := by
  cases l with
  | nil => rfl
  | cons c rest =>
    have := h c rfl
    rw [List.dropWhile_cons_of_neg (by simp [this])]

theorem dropTrail_dropTrail (l : List Char) :
    dropTrail (dropTrail l) = dropTrail l := by
  unfold dropTrail
  rw [List.reverse_reverse, dropWhile_self]

theorem dropTrail_isPre (l : List Char) : ∃ v, l = dropTrail l ++ v := by
  refine ⟨(l.reverse.takeWhile pyWhitespace).reverse, ?_⟩
  unfold dropTrail
  have h := List.takeWhile_append_dropWhile (p := pyWhitespace) (l := l.reverse)
  have := congrArg List.reverse h
  rw [List.reverse_append, List.reverse_reverse] at this
  exact this.symm

theorem strip_strip (l : List Char) : strip (strip l) = strip l := by
  unfold strip
  set m := l.dropWhile pyWhitespace with hm
  have h1 : (dropTrail m).dropWhile pyWhitespace = dropTrail m := by
    apply dropWhile_of_head_false
    intro c hc
    apply dropWhile_head_false (l := l)
    obtain ⟨v, hv⟩ := dropTrail_isPre m
    rw [← hm]
    cases hd : dropTrail m with
    | nil => rw [hd] at hc; cases hc
    | cons d ds =>
      rw [hd] at hc
      simp at hc
      rw [hv, hd]
      simp [hc]
  rw [h1, dropTrail_dropTrail]

theorem strip_eq_nil_iff (l : List Char) :
    strip l = [] ↔ ∀ c ∈ l, pyWhitespace c = true := by
  unfold strip dropTrail
  rw [List.reverse_eq_nil_iff, List.dropWhile_eq_nil_iff]
  constructor
  · intro h c hc
    rcases List.mem_append.mp
        ((List.takeWhile_append_dropWhile (p := pyWhitespace) (l := l)) ▸ hc) with
        hc2 | hc2
    · exact List.mem_takeWhile_imp hc2
    · exact h c (List.mem_reverse.mpr hc2)
  · intro h c hc
    apply h
    have : c ∈ l.dropWhile pyWhitespace := List.mem_reverse.mp hc
    have hsub : ∀ x ∈ l.dropWhile pyWhitespace, x ∈ l := by
      intro x hx
      have := List.takeWhile_append_dropWhile (p := pyWhitespace) (l := l)
      rw [← this]
      exact List.mem_append.mpr (Or.inr hx)
    exact hsub c this

theorem strip_decomp (l : List Char) : ∃ u v, l = u ++ strip l ++ v := by
  refine ⟨l.takeWhile pyWhitespace, ?_⟩
  obtain ⟨v, hv⟩ := dropTrail_isPre (l.dropWhile pyWhitespace)
  refine ⟨v, ?_⟩
  conv_lhs => rw [← List.takeWhile_append_dropWhile (p := pyWhitespace) (l := l)]
  rw [List.append_assoc]
  unfold strip
  rw [← hv]

/-! ### Classification of the split pieces -/

theorem dropTrail_concat_false {w rest : List Char} {c : Char}
    (hw : w = rest ++ [c]) (hc : pyWhitespace c = false) : dropTrail w = w := by
  unfold dropTrail
  rw [hw, List.reverse_append]
  simp only [List.reverse_cons, List.reverse_nil, List.nil_append,
    List.singleton_append]
  rw [List.dropWhile_cons_of_neg (by simp [hc])]
  simp

theorem strip_tagged (x : List Char) :
    strip (openTag ++ x ++ closeTag) = openTag ++ x ++ closeTag := by
  unfold strip
  have h1 : (openTag ++ x ++ closeTag).dropWhile pyWhitespace
      = openTag ++ x ++ closeTag := by
    apply dropWhile_of_head_false
    intro c hc
    have : (openTag ++ x ++ closeTag).head? = some '<' := by
      rw [show openTag ++ x ++ closeTag = '<' :: (['m', 'd', '>'] ++ x ++ closeTag)
        from by simp [openTag]]
      rfl
    rw [this] at hc
    cases hc
    decide
  rw [h1]
  exact dropTrail_concat_false
    (show openTag ++ x ++ closeTag
        = (openTag ++ x ++ ['<', '/', 'm', 'd']) ++ ['>'] from by
      simp [closeTag])
    (by decide)

theorem segPart_plain {p : List Char}
    (h : containsPat openTag p = false ∨ containsPat closeTag p = false) :
    segPart p = if strip p = [] then none else some (Segment.text (strip p)) := by
  by_cases hsp : strip p = []
  · simp [segPart, hsp]
  · have hcond : (listStartsWith openTag (strip p)
        && listEndsWith closeTag (strip p)) = false := by
      rcases h with h | h
      · have : listStartsWith openTag (strip p) = false := by
          rw [Bool.eq_false_iff]
          intro hs
          obtain ⟨t, ht⟩ := (listStartsWith_iff _ _).mp hs
          have hocc : containsPat openTag (strip p) = true :=
            (containsPat_iff (by decide) _).mpr ⟨[], t, by simp [ht]⟩
          obtain ⟨u, v, huv⟩ := strip_decomp p
          have := containsPat_mono (by decide) hocc ⟨u, v, huv⟩
          rw [h] at this
          cases this
        simp [this]
      · have : listEndsWith closeTag (strip p) = false := by
          rw [Bool.eq_false_iff]
          intro hs
          obtain ⟨u, hu⟩ := (listEndsWith_iff _ _).mp hs
          have hocc : containsPat closeTag (strip p) = true :=
            (containsPat_iff (by decide) _).mpr ⟨u, [], by simp [hu]⟩
          obtain ⟨a, b, hab⟩ := strip_decomp p
          have := containsPat_mono (by decide) hocc ⟨a, b, hab⟩
          rw [h] at this
          cases this
        simp [this]
    simp [segPart, hsp, hcond]

theorem segPart_tagged (x : List Char) :
    segPart (openTag ++ x ++ closeTag)
      = if strip x = [] then none else some (Segment.renderable (strip x)) := by
  have hne : openTag ++ x ++ closeTag ≠ [] := by simp [openTag]
  have hstart : listStartsWith openTag (openTag ++ x ++ closeTag) = true :=
    (listStartsWith_iff _ _).mpr ⟨x ++ closeTag, by simp⟩
  have hend : listEndsWith closeTag (openTag ++ x ++ closeTag) = true :=
    (listEndsWith_iff _ _).mpr ⟨openTag ++ x, by simp⟩
  have hdrop : (openTag ++ x ++ closeTag).drop 4 = x ++ closeTag := by
    rw [show openTag ++ x ++ closeTag = openTag ++ (x ++ closeTag) from by simp,
      show (4 : Nat) = openTag.length from rfl, List.drop_left]
  have hdr : dropRight 5 (x ++ closeTag) = x := by
    unfold dropRight
    rw [show (x ++ closeTag).length - 5 = x.length from by simp [closeTag],
      List.take_left]
  unfold segPart
  simp only [strip_tagged, hdrop, hdr]
  rw [if_neg hne, if_pos (by rw [hstart, hend]; rfl)]

/-! ### Behaviour of the segmentation on decomposed inputs -/

theorem seg_step (pre x rest : List Char)
    (hpre : containsPat openTag pre = false)
    (hx : containsPat closeTag x = false) :
    segmentText (pre ++ openTag ++ x ++ closeTag ++ rest)
      = (if strip pre = [] then [] else [Segment.text (strip pre)])
        ++ (if strip x = [] then [] else [Segment.renderable (strip x)])
        ++ segmentText rest := by
  have hm := findMdMatch_at pre x rest hpre hx
  unfold segmentText
  rw [splitParts_of_some hm, List.filterMap_cons, List.filterMap_cons,
    segPart_plain (Or.inl hpre), segPart_tagged]
  by_cases h1 : strip pre = [] <;> by_cases h2 : strip x = [] <;>
    simp [h1, h2]

theorem seg_notags (l : List Char)
    (h : containsPat openTag l = false ∨ containsPat closeTag l = false) :
    segmentText l = if strip l = [] then [] else [Segment.text (strip l)] := by
  unfold segmentText
  rw [splitParts_of_none (findMdMatch_none h), List.filterMap_cons,
    segPart_plain h]
  by_cases h1 : strip l = [] <;> simp [h1]

/-! ### Rendering and chain decoration -/

theorem handlePart_eq (render : List Char → RenderOutcome) (part : List Char) :
    handlePart render part = (segPart part).map (renderSegment render) := by
  unfold handlePart segPart
  by_cases h1 : strip part = []
  · simp [h1]
  · by_cases h2 : (listStartsWith openTag (strip part)
        && listEndsWith closeTag (strip part)) = true
    · by_cases h3 : strip (dropRight 5 ((strip part).drop 4)) = []
      · simp [h1, h2, h3]
      · simp only [h1, h2, h3, if_neg, if_pos, if_true, if_false]
        simp [h1, h3, renderSegment]
    · simp [h1, h2, renderSegment]

theorem on_decorating_cons (render : List Char → RenderOutcome)
    (item : Component) (rest : List Component) :
    on_decorating_result render (item :: rest)
      = (match item with
          | Component.plain t => process_text_with_markdown render t
          | x => [x]) ++ on_decorating_result render rest := rfl

theorem on_decorating_append (render : List Char → RenderOutcome)
    (a b : List Component) :
    on_decorating_result render (a ++ b)
      = on_decorating_result render a ++ on_decorating_result render b := by
  induction a with
  | nil => rfl
  | cons item rest ih =>
    simp only [List.cons_append]
    rw [on_decorating_cons, on_decorating_cons, ih, List.append_assoc]

/-! ### Claim theorems -/

/-- C1: for an input consisting of exactly one well-formed, non-nested pair
`<md>x</md>` (no tag occurs in the text before the pair, inside the pair or
after it) whose interior is non-empty after trimming, segmentation yields
exactly one `Renderable` segment carrying the trimmed interior, preceded and
followed by a `Text` segment exactly when the trimmed text before
respectively after the pair is non-empty, and nothing else. -/
theorem segment_single_pair (pre x post : List Char)
    (h1 : containsPat openTag pre = false)
    (_h2 : containsPat closeTag pre = false)
    (_h3 : containsPat openTag x = false)
    (h4 : containsPat closeTag x = false)
    (h5 : containsPat openTag post = false)
    (_h6 : containsPat closeTag post = false)
    (h7 : strip x ≠ []) :
    segmentText (pre ++ openTag ++ x ++ closeTag ++ post)
      = (if strip pre = [] then [] else [Segment.text (strip pre)])
        ++ [Segment.renderable (strip x)]
        ++ (if strip post = [] then [] else [Segment.text (strip post)]) := by
  rw [seg_step pre x post h1 h4, seg_notags post (Or.inl h5), if_neg h7]

/-- C1 witness: `"pre <md> hello </md> post"` yields
`[Text "pre", Renderable "hello", Text "post"]`. -/
theorem segment_single_pair_witness :
    segmentText (str "pre <md> hello </md> post")
      = [Segment.text (str "pre"), Segment.renderable (str "hello"),
         Segment.text (str "post")] := by
  have h := segment_single_pair (str "pre ") (str " hello ") (str " post")
    (by decide) (by decide) (by decide) (by decide) (by decide) (by decide)
    (by decide)
  exact h.trans (by decide)

/-- C2 counterexample: the input `"<md>A</md><md>B"` has two `<md>` and one
`</md>` (imbalanced), yet the pipeline does not fall back to a single `Text`
segment for the whole input: it extracts the complete pair as a `Renderable`
segment. -/
theorem imbalanced_tags_counterexample :
    countOcc openTag (str "<md>A</md><md>B") = 2
      ∧ countOcc closeTag (str "<md>A</md><md>B") = 1
      ∧ segmentText (str "<md>A</md><md>B")
          = [Segment.renderable (str "A"), Segment.text (str "<md>B")] :=
  ⟨by decide, by decide, by decide⟩

/-- C2 amended: when the tag counts differ because `<md>` occurs but `</md>`
does not occur at all (so no complete pair exists), the pipeline produces
exactly one `Text` segment holding the whole trimmed input and no
`Renderable` segment. -/
theorem imbalanced_no_close_fallback (l : List Char)
    (h1 : countOcc openTag l ≠ 0) (h2 : countOcc closeTag l = 0) :
    segmentText l = [Segment.text (strip l)] := by
  have hc : containsPat closeTag l = false := (countOcc_eq_zero_iff _ _).mp h2
  have ho : containsPat openTag l = true := by
    cases hb : containsPat openTag l
    · exact absurd ((countOcc_eq_zero_iff _ _).mpr hb) h1
    · rfl
  have hne : strip l ≠ [] := by
    obtain ⟨u, v, huv⟩ := (containsPat_iff (by decide) l).mp ho
    intro hnil
    have hall := (strip_eq_nil_iff l).mp hnil
    have hlt : pyWhitespace '<' = true := hall '<' (by rw [huv]; simp [openTag])
    exact absurd hlt (by decide)
  rw [seg_notags l (Or.inr hc), if_neg hne]

/-- C2 witness: `"<md>A<md>B"` (two `<md>`, zero `</md>`) becomes a single
`Text` segment holding the whole input. -/
theorem imbalanced_no_close_fallback_witness :
    countOcc openTag (str "<md>A<md>B") ≠ 0
      ∧ countOcc closeTag (str "<md>A<md>B") = 0
      ∧ segmentText (str "<md>A<md>B") = [Segment.text (str "<md>A<md>B")] :=
  ⟨by decide, by decide,
    (imbalanced_no_close_fallback (str "<md>A<md>B") (by decide)
      (by decide)).trans (by decide)⟩

/-- C3 counterexample: the input `<md>A<md>B</md>` (two start tags with no
end tag between them) does produce a `Renderable` segment, contradicting
the claimed whole-text fallback. -/
theorem nested_tags_counterexample :
    Segment.renderable (str "A<md>B") ∈ segmentText (str "<md>A<md>B</md>") := by
  decide

/-- C3 amended: the input `<md>A<md>B</md>` yields exactly one `Renderable`
segment whose markdown is `A<md>B` — the non-greedy regex matches from the
first start tag to the first end tag, keeping the second `<md>` as literal
content — and no `Text` segment; no whole-text fallback occurs. -/
theorem nested_tags_renderable :
    segmentText (str "<md>A<md>B</md>") = [Segment.renderable (str "A<md>B")] := by
  decide

/-- C4: segmentation is order-preserving: for a text with two well-formed
pairs and tag-free surrounding runs, all non-empty after trimming, the
output is exactly `[Text pre, Renderable x, Text mid, Renderable y,
Text post]`, in the left-to-right order of the input. -/
theorem segment_order_preserving (pre x mid y post : List Char)
    (h1 : containsPat openTag pre = false)
    (_h2 : containsPat closeTag pre = false)
    (h3 : containsPat closeTag x = false)
    (h4 : containsPat openTag mid = false)
    (_h5 : containsPat closeTag mid = false)
    (h6 : containsPat closeTag y = false)
    (h7 : containsPat openTag post = false)
    (_h8 : containsPat closeTag post = false)
    (hp : strip pre ≠ []) (hx : strip x ≠ []) (hm : strip mid ≠ [])
    (hy : strip y ≠ []) (hq : strip post ≠ []) :
    segmentText
        (pre ++ openTag ++ x ++ closeTag
          ++ (mid ++ openTag ++ y ++ closeTag ++ post))
      = [Segment.text (strip pre), Segment.renderable (strip x),
         Segment.text (strip mid), Segment.renderable (strip y),
         Segment.text (strip post)] := by
  rw [seg_step pre x _ h1 h3, seg_step mid y _ h4 h6,
    seg_notags post (Or.inl h7), if_neg hp, if_neg hx, if_neg hm, if_neg hy,
    if_neg hq]
  rfl

/-- C4 witness: `"pre <md>X</md> mid <md>Y</md> post"` yields exactly
`[Text "pre", Renderable "X", Text "mid", Renderable "Y", Text "post"]`. -/
theorem segment_order_preserving_witness :
    segmentText (str "pre <md>X</md> mid <md>Y</md> post")
      = [Segment.text (str "pre"), Segment.renderable (str "X"),
         Segment.text (str "mid"), Segment.renderable (str "Y"),
         Segment.text (str "post")] := by
  have h := segment_order_preserving (str "pre ") (str "X") (str " mid ")
    (str "Y") (str " post") (by decide) (by decide) (by decide) (by decide)
    (by decide) (by decide) (by decide) (by decide) (by decide) (by decide)
    (by decide) (by decide) (by decide)
  exact h.trans (by decide)

/-- C5 counterexample: the whitespace-only input `"   "` contains neither
tag, yet segmentation produces zero segments rather than the claimed single
`Text` segment holding the trimmed (empty) input. -/
theorem no_tag_empty_counterexample :
    countOcc openTag (str "   ") = 0
      ∧ countOcc closeTag (str "   ") = 0
      ∧ segmentText (str "   ") = []
      ∧ segmentText (str "   ") ≠ [Segment.text (strip (str "   "))] :=
  ⟨by decide, by decide, by decide, by decide⟩

/-- C5 amended: for input with zero occurrences of either tag that is
non-empty after trimming, segmentation yields exactly one `Text` segment
holding the trimmed input (all-whitespace input yields no segment at
all). -/
theorem no_tag_single_text (l : List Char)
    (h1 : countOcc openTag l = 0) (_h2 : countOcc closeTag l = 0)
    (h3 : strip l ≠ []) :
    segmentText l = [Segment.text (strip l)] := by
  rw [seg_notags l (Or.inl ((countOcc_eq_zero_iff _ _).mp h1)), if_neg h3]

/-- C5 witness: `"hello world"` passes through as one `Text` segment. -/
theorem no_tag_single_text_witness :
    segmentText (str "hello world") = [Segment.text (str "hello world")] := by
  have h := no_tag_single_text (str "hello world") (by decide) (by decide)
    (by decide)
  exact h.trans (by decide)

/-- C6: a matched pair whose interior is whitespace-only contributes no
segment at all: the output consists solely of the (optional) `Text`
segments for the surrounding runs, with no `Renderable` segment. -/
theorem empty_interior_dropped (pre x post : List Char)
    (h1 : containsPat openTag pre = false)
    (_h2 : containsPat closeTag pre = false)
    (h3 : containsPat openTag post = false)
    (_h4 : containsPat closeTag post = false)
    (hx : strip x = []) :
    segmentText (pre ++ openTag ++ x ++ closeTag ++ post)
      = (if strip pre = [] then [] else [Segment.text (strip pre)])
        ++ (if strip post = [] then [] else [Segment.text (strip post)]) := by
  have hxc : containsPat closeTag x = false := by
    rw [containsPat_false_iff (by decide)]
    intro u v he
    have hall := (strip_eq_nil_iff x).mp hx
    have hlt : pyWhitespace '<' = true := hall '<' (by rw [he]; simp [closeTag])
    exact absurd hlt (by decide)
  rw [seg_step pre x post h1 hxc, seg_notags post (Or.inl h3), if_pos hx]
  simp

/-- C6 witness: `"<md>   </md>"` produces zero segments. -/
theorem empty_interior_dropped_witness :
    segmentText (str "<md>   </md>") = [] := by
  have h := empty_interior_dropped [] (str "   ") [] (by decide) (by decide)
    (by decide) (by decide) (by decide)
  exact h.trans (by decide)

/-- C7: every segment ever emitted by the segmentation, for any input,
carries content that is already stripped and non-empty — hence non-empty
after trimming; empty pieces are dropped and never appear. -/
theorem segment_content_nonempty (l : List Char) (s : Segment)
    (h : s ∈ segmentText l) :
    strip (segContent s) = segContent s ∧ segContent s ≠ [] := by
  unfold segmentText at h
  obtain ⟨p, _hp, hps⟩ := List.mem_filterMap.mp h
  unfold segPart at hps
  by_cases h1 : strip p = []
  · simp [h1] at hps
  · by_cases h2 : (listStartsWith openTag (strip p)
        && listEndsWith closeTag (strip p)) = true
    · by_cases h3 : strip (dropRight 5 ((strip p).drop 4)) = []
      · simp [h1, h2, h3] at hps
      · simp only [h1, h2, h3, if_neg, if_true, if_false] at hps
        simp at hps
        rw [← hps]
        exact ⟨strip_strip _, h3⟩
    · simp only [h1, h2] at hps
      simp at hps
      rw [← hps]
      exact ⟨strip_strip _, h1⟩

/-- C7 witness: the `Text` segment emitted for `"hi"` is stripped and
non-empty. -/
theorem segment_content_nonempty_witness :
    Segment.text (str "hi") ∈ segmentText (str "hi")
      ∧ strip (segContent (Segment.text (str "hi")))
          = segContent (Segment.text (str "hi"))
      ∧ segContent (Segment.text (str "hi")) ≠ [] := by
  refine ⟨by decide, ?_⟩
  have h := segment_content_nonempty (str "hi") (Segment.text (str "hi"))
    (by decide)
  exact h

/-- C8: materialising the components is exactly mapping `renderSegment`
over the segments, so every `Renderable` segment yields exactly one
component in place (siblings are unaffected); when the render oracle
reports no file or an exception, that component is a `Plain` failure notice
consisting of the marker line followed by the original markdown, which thus
remains a suffix of the notice (never silently dropped). -/
theorem render_failure_notice (render : List Char → RenderOutcome)
    (l : List Char) :
    process_text_with_markdown render l
        = (segmentText l).map (renderSegment render)
      ∧ (∀ m, render m = RenderOutcome.missing →
          renderSegment render (Segment.renderable m)
            = Component.plain (failNotice ++ m))
      ∧ (∀ m, render m = RenderOutcome.error →
          renderSegment render (Segment.renderable m)
            = Component.plain (errorNotice ++ m))
      ∧ (∀ m : List Char, m <:+ failNotice ++ m ∧ m <:+ errorNotice ++ m) := by
  refine ⟨?_, ?_, ?_, ?_⟩
  · unfold process_text_with_markdown segmentText
    rw [show handlePart render = fun p => (segPart p).map (renderSegment render)
      from funext (handlePart_eq render), List.map_filterMap]
  · intro m hm
    simp [renderSegment, hm]
  · intro m hm
    simp [renderSegment, hm]
  · intro m
    exact ⟨⟨failNotice, rfl⟩, ⟨errorNotice, rfl⟩⟩

/-- C8 witness: with an oracle that always reports a missing artifact,
`"a<md>X</md>"` becomes `[Plain "a", Plain (notice ++ "X")]`, the notice
containing the original markdown. -/
theorem render_failure_notice_witness :
    process_text_with_markdown (fun _ => RenderOutcome.missing)
        (str "a<md>X</md>")
        = [Component.plain (str "a"), Component.plain (failNotice ++ str "X")]
      ∧ renderSegment (fun _ => RenderOutcome.missing)
          (Segment.renderable (str "X"))
          = Component.plain (failNotice ++ str "X") := by
  have h := render_failure_notice (fun _ => RenderOutcome.missing)
    (str "a<md>X</md>")
  exact ⟨h.1.trans (by decide), h.2.1 (str "X") rfl⟩

/-- C9: tag matching is case-sensitive and positional: whenever the exact
literal `<md>` or the exact literal `</md>` is absent (for example when the
tags appear only in a different letter case), no `Renderable` segment is
ever produced — everything is emitted as `Text`; and the exact-case tags
are recognised even in the middle of a line, as the two concrete inputs
show. -/
theorem tag_matching_case_sensitive :
    (∀ (l : List Char) (s : Segment),
        (containsPat openTag l = false ∨ containsPat closeTag l = false) →
        s ∈ segmentText l → ∃ c, s = Segment.text c)
      ∧ segmentText (str "a<MD>x</MD>b") = [Segment.text (str "a<MD>x</MD>b")]
      ∧ segmentText (str "a<md>X</md>b")
          = [Segment.text (str "a"), Segment.renderable (str "X"),
             Segment.text (str "b")] := by
  refine ⟨?_, by decide, by decide⟩
  intro l s h hs
  rw [seg_notags l h] at hs
  by_cases h1 : strip l = []
  · rw [if_pos h1] at hs
    cases hs
  · rw [if_neg h1] at hs
    simp at hs
    exact ⟨strip l, hs⟩

/-- C9 witness: the general part applied to `"x <Md>y</Md> z"`, whose only
tags are wrong-case, shows its sole segment is a `Text` segment. -/
theorem tag_matching_case_sensitive_witness :
    ∃ c, Segment.text (str "x <Md>y</Md> z") = Segment.text c :=
  tag_matching_case_sensitive.1 (str "x <Md>y</Md> z")
    (Segment.text (str "x <Md>y</Md> z")) (by decide) (by decide)

/-- C10: the chain-decoration stage passes every non-`Plain` component
through unchanged, in its original relative position, and replaces every
`Plain` component by exactly the components produced from its text. -/
theorem decorating_preserves_non_plain (render : List Char → RenderOutcome)
    (c1 c2 : List Component) :
    (∀ c : Component, (∀ t, c ≠ Component.plain t) →
        on_decorating_result render (c1 ++ c :: c2)
          = on_decorating_result render c1 ++ c :: on_decorating_result render c2)
      ∧ (∀ t, on_decorating_result render (c1 ++ Component.plain t :: c2)
          = on_decorating_result render c1 ++ process_text_with_markdown render t
            ++ on_decorating_result render c2) := by
  constructor
  · intro c hc
    rw [on_decorating_append, on_decorating_cons]
    cases c with
    | plain t => exact absurd rfl (hc t)
    | image p => rfl
    | other n => rfl
  · intro t
    rw [on_decorating_append, on_decorating_cons, List.append_assoc]

/-- C10 witness: an `Image` and an `other` component survive decoration
unchanged around a rewritten `Plain` component. -/
theorem decorating_preserves_non_plain_witness :
    on_decorating_result (fun _ => RenderOutcome.error)
        [Component.image (str "p.png"), Component.plain (str "a<md>X</md>"),
         Component.other 3]
      = [Component.image (str "p.png"), Component.plain (str "a"),
         Component.plain (errorNotice ++ str "X"), Component.other 3] := by
  have h := (decorating_preserves_non_plain (fun _ => RenderOutcome.error)
    [] [Component.plain (str "a<md>X</md>"), Component.other 3]).1
    (Component.image (str "p.png")) (fun t => by simp)
  exact h.trans (by decide)
